import Mathlib

/-!
# Verification of the Simon's-algorithm notebooks

Shallow embedding of the notebooks of this repository:

* `src/unnamed/part_000` — "Introduction to Quantum Computing": documents
  the gate semantics used here (Hadamard matrix `H = 1/√2 [[1,1],[1,-1]]`,
  CNOT truth table `|c,t⟩ ↦ |c, t ⊕ c⟩`).
* `src/unnamed/part_001` — "Simon's Algorithm": builds the circuit for the
  hard-coded bit string `s = '110'`, runs it, tallies the first-`n`-bit
  outcomes into `answer_plot`, and recovers `s` as `int(y1) ^ int(y2)`.
* `src/.ipynb_checkpoints/05-Simons_Algorithm-Regitti-checkpoint.ipynb` —
  the same algorithm for `s = '11011'`, plus a remote-QPU submission
  (`ionq_task = ionq.run(…)`) and a post-processing cell (build the matrix
  of measured rows, sympy `rref`, a mod-2 normalisation helper `mod`, and
  an equation-printing loop).

Conventions: an `n`-character bit string is a `List Char` of `'0'`/`'1'`;
a basis state of the `2n`-qubit register is a `Nat < 2^(2n)` whose bit `i`
(`Nat.testBit · i`) is the value of qubit `i`.  The measurement string
returned by the SDK lists qubit 0 first, so character `i` of a measured
string is bit `i` of the basis state; the first `n` characters (the input
register) are the low `n` bits.
-/

/-- The hard-coded hidden string of `part_001`, cell "Circuit Definition":
`s = '110'`. -/
def sChars : List Char := ['1', '1', '0']

/-- Gates emitted by the notebook's circuit construction: `circ.h(q)` and
`circ.cnot(c, t)`. -/
inductive Gate where
  | h (q : ℕ)
  | cnot (c t : ℕ)
  deriving DecidableEq, Repr

/-- `circ.h(range(n))`: a Hadamard gate on each of qubits `0 .. n-1`, in
order. -/
def hLayer (n : ℕ) : List Gate := (List.range n).map Gate.h

/-- The oracle-construction loop of `part_001` (lines 147-150):
`for i in range(n): if int(s[i]) == 1: for j in range(n): circ.cnot(i, n+j)`.
For the digit characters of `s`, `int(s[i]) == 1` is `s[i] = '1'`. -/
def oracleGates (s : List Char) (n : ℕ) : List Gate :=
  (List.range n).flatMap fun i =>
    if s.getD i '0' = '1' then (List.range n).map (fun j => Gate.cnot i (n + j)) else []

/-- The whole circuit of `part_001` lines 137-157: Hadamard layer, oracle,
Hadamard layer, with `n = len(str(s)) = s.length`. -/
def simonCircuit (s : List Char) : List Gate :=
  hLayer s.length ++ oracleGates s s.length ++ hLayer s.length

/-! ## State-vector semantics

`part_000` gives the single-qubit Hadamard matrix `1/√2 [[1,1],[1,-1]]` and
the CNOT action `|c,t⟩ → |c, t ⊕ c⟩`.  A state is a map from basis states
to amplitudes.  We keep integer amplitudes by dropping the global `1/√2`
factor of each Hadamard (a global scalar, so the set of basis states with
nonzero amplitude — all we use — is unchanged; with the six Hadamards of
the `n = 3` circuit the true amplitudes are these divided by `2^3`). -/

/-- Action of one gate on a state-vector `ψ`.
* `h q`: new amplitude at `x` is `ψ(x[q:=0]) + (-1)^(x_q) · ψ(x[q:=1])`
  (row `x_q` of the Hadamard matrix, unnormalised).
* `cnot c t`: permutation `|x⟩ ↦ |x with bit t flipped if bit c is set⟩`;
  CNOT is self-inverse, so the new amplitude at `x` is `ψ` at the image
  of `x`. -/
def applyGate : Gate → (ℕ → ℤ) → (ℕ → ℤ)
  | Gate.h q, ψ => fun x =>
      if x.testBit q then ψ (x ^^^ 2 ^ q) - ψ x else ψ x + ψ (x ^^^ 2 ^ q)
  | Gate.cnot c t, ψ => fun x => if x.testBit c then ψ (x ^^^ 2 ^ t) else ψ x

/-- Run a gate list on a state. -/
def runCircuit (gs : List Gate) (ψ : ℕ → ℤ) : ℕ → ℤ :=
  gs.foldl (fun φ g => applyGate g φ) ψ

/-- The initial state `|0…0⟩` of the simulator. -/
def initState : ℕ → ℤ := fun x => if x = 0 then 1 else 0

/-- Amplitude of basis state `x` after the `part_001` circuit on `2n`
qubits, starting from `|0…0⟩`. -/
def finalAmp (s : List Char) (x : ℕ) : ℤ :=
  runCircuit (simonCircuit s) initState x

/-- Basis states a run of the circuit can return: those with nonzero final
amplitude (the local simulator samples from `|amplitude|²`). -/
def supportStates (s : List Char) : List ℕ :=
  (List.range (2 ^ (2 * s.length))).filter fun x => decide (finalAmp s x ≠ 0)

/-- The `n`-character string of the low `n` bits of a basis state:
character `i` is qubit `i`, matching `measresult[:len(str(s))]` in
`part_001` line 198. -/
def natToChars (n x : ℕ) : List Char :=
  (List.range n).map fun i => if x.testBit i then '1' else '0'

/-- The input-register strings a run can observe, i.e. the possible keys of
`answer_plot` (`part_001` lines 196-202 group the measured strings by their
first `n` characters). -/
def possibleKeys (s : List Char) : List (List Char) :=
  ((supportStates s).map fun x => natToChars s.length (x % 2 ^ s.length)).dedup

/-- Python `int(y)` on a `'0'`/`'1'` string: read it as a decimal numeral
(`part_001` line 225 does `int(y1) ^ int(y2)`). -/
def pyInt (l : List Char) : ℕ :=
  l.foldl (fun a c => 10 * a + if c = '1' then 1 else 0) 0

/-- Bitwise XOR of two bit strings, character by character. -/
def strXor (a b : List Char) : List Char :=
  List.zipWith (fun c d => if (c = '1') = (d = '1') then '0' else '1') a b

/-! ## The function `f` computed by the oracle block

The oracle gates are all CNOTs, which permute basis states, so on the
second register they compute a classical function of the input register:
start from `|x⟩|0…0⟩` (input register in the low `n` bits, second register
zero) and read off the high `n` bits after the block. -/

/-- Classical action of one gate on a basis state.  CNOT flips the target
bit when the control bit is set (`part_000`, "CNOT Gate").  The `h` branch
is never reached on the oracle block, which contains only CNOTs
(`oracle_structure`). -/
def cnotStep (x : ℕ) : Gate → ℕ
  | Gate.cnot c t => if x.testBit c then x ^^^ 2 ^ t else x
  | Gate.h _ => x

/-- The function `f` implemented on the second register by the emitted
CNOTs: run the oracle block on the basis state `|x⟩|0…0⟩` and keep the
second register (the high `n` bits). -/
def fOracle (s : List Char) (x : ℕ) : ℕ :=
  ((oracleGates s s.length).foldl cnotStep (x % 2 ^ s.length)) >>> s.length

/-- The bit-`i`-of-`s` encoding of a bit string as a `Nat`, matching the
basis-state convention (character `i` of the string is bit `i`). -/
def strToNat : List Char → ℕ
  | [] => 0
  | c :: cs => (if c = '1' then 1 else 0) + 2 * strToNat cs

/-- Parity of the bits of `x` selected by the index list `l`. -/
def bparity (l : List ℕ) (x : ℕ) : Bool :=
  l.foldr (fun i b => x.testBit i ^^ b) false

/-- The controls of the oracle block: the indices `i < n` with
`s[i] = '1'`. -/
def ctrlList (s : List Char) : List ℕ :=
  (List.range s.length).filter fun i => decide (s.getD i '0' = '1')

/-- XOR-fold of the target masks `2 ^ (n + j)` over a list of `j`s. -/
def blockMask (n : ℕ) (js : List ℕ) : ℕ :=
  (js.map fun j => 2 ^ (n + j)).foldr (· ^^^ ·) 0

/-! ## The tally loop (`answer_plot`) and the recovery unpacking

`result.measurement_counts` is a Python dict from measured `2n`-character
strings to counts; we model a dict as an association list in insertion
order (distinct keys).  The loop of `part_001` lines 196-202 walks the
keys in order, truncates each to its first `n` characters, and either adds
the count to an existing entry (`answer_plot[k] += v`) or appends a new
entry (`answer_plot[k] = v`). -/

/-- One dict update `answer_plot[p] += v` / `answer_plot[p] = v`: if the
key is present, add to its entry, otherwise append the pair. -/
def updAdd (ap : List (List Char × ℕ)) (p : List Char) (v : ℕ) :
    List (List Char × ℕ) :=
  if ap.any fun e => decide (e.1 = p) then
    ap.map fun e => if e.1 = p then (e.1, e.2 + v) else e
  else ap ++ [(p, v)]

/-- The tally loop: group the counts of `mc` by the first `n` characters
of each key. -/
def answerPlot (n : ℕ) (mc : List (List Char × ℕ)) : List (List Char × ℕ) :=
  mc.foldl (fun ap e => updAdd ap (e.1.take n) e.2) []

/-- Total count recorded against the key `p` in an association list (the
dict value when keys are distinct, `0` when absent). -/
def getVal (l : List (List Char × ℕ)) (p : List Char) : ℕ :=
  ((l.filter fun e => decide (e.1 = p)).map Prod.snd).sum

/-- Python tuple unpacking `y1, y2 = keys`: succeeds exactly on a
two-element iterable, otherwise raises `ValueError` (modelled as `none`). -/
def unpack2 {α : Type} : List α → Option (α × α)
  | [a, b] => some (a, b)
  | _ => none

/-- The recovery step of `part_001` lines 223-225 as a fallible value:
`y1, y2 = answer_plot.keys()` followed by `s_calc = int(y1) ^ int(y2)`;
`none` models the `ValueError` raised when the unpacking fails. -/
def sCalc (n : ℕ) (mc : List (List Char × ℕ)) : Option ℕ :=
  (unpack2 ((answerPlot n mc).map Prod.fst)).map fun y => pyInt y.1 ^^^ pyInt y.2

/-- A concrete `measurement_counts` dict of the shape the `n = 3` run
produces (three distinct 6-character result strings with counts). -/
def simonTallyExample : List (List Char × ℕ) :=
  [ (['0', '0', '0', '0', '0', '0'], 2),
    (['1', '1', '0', '0', '0', '0'], 1),
    (['0', '0', '0', '1', '1', '1'], 2) ]

/-! ## Execution shape of the notebooks (C7, C8)

Each notebook is a linear list of code cells; each cell is a list of
statements, of which all that matters here is whether a statement is a
blocking call to an external device (`device.run` / a remote `run`) or
anything else. -/

/-- A notebook statement, classified by whether it is a blocking
device-run invocation. -/
inductive Stmt where
  | deviceRun
  | other
  deriving DecidableEq, Repr

/-- The code cells of `part_000` ("Introduction to Quantum Computing"),
one list entry per statement, in source order.  The `deviceRun` entries
are the seven `task = device.run(qc, shots=…)` lines (source lines 152,
193, 250, 309, 352, 388, 458). -/
def part000Cells : List (List Stmt) :=
  [ [Stmt.other, Stmt.other],                                        -- imports
    [Stmt.other, Stmt.other],                                        -- qc = Circuit().i(0); print
    [Stmt.other, Stmt.deviceRun, Stmt.other, Stmt.other],            -- identity run
    [Stmt.other, Stmt.other, Stmt.other, Stmt.deviceRun, Stmt.other,
      Stmt.other],                                                   -- X-gate run
    [Stmt.other, Stmt.other, Stmt.other, Stmt.deviceRun, Stmt.other,
      Stmt.other],                                                   -- Hadamard run
    [Stmt.other, Stmt.other, Stmt.other, Stmt.deviceRun, Stmt.other,
      Stmt.other],                                                   -- two-qubit H run
    [Stmt.other, Stmt.other, Stmt.other, Stmt.other, Stmt.other,
      Stmt.other, Stmt.deviceRun, Stmt.other, Stmt.other],           -- CNOT run
    [Stmt.other, Stmt.other, Stmt.other, Stmt.other, Stmt.other,
      Stmt.deviceRun, Stmt.other, Stmt.other],                       -- entanglement run
    [Stmt.other, Stmt.other, Stmt.other, Stmt.other, Stmt.other,
      Stmt.other, Stmt.other, Stmt.other, Stmt.other, Stmt.other,
      Stmt.deviceRun, Stmt.other, Stmt.other],                       -- GHZ run
    [Stmt.other, Stmt.other, Stmt.other, Stmt.other] ]               -- gate_set listing

/-- The code cells of `part_001` ("Simon's Algorithm"), one entry per
statement, in source order; the single `deviceRun` is
`task = device.run(circ, shots=2*n-1)` (source line 173). -/
def part001Cells : List (List Stmt) :=
  [ [Stmt.other, Stmt.other, Stmt.other, Stmt.other, Stmt.other, Stmt.other,
      Stmt.other],                                                   -- imports, device
    [Stmt.other, Stmt.other, Stmt.other, Stmt.other, Stmt.other, Stmt.other,
      Stmt.other],                                                   -- circuit build
    [Stmt.deviceRun],                                                -- run the circuit
    [Stmt.other, Stmt.other, Stmt.other, Stmt.other, Stmt.other, Stmt.other,
      Stmt.other],                                                   -- tally and plot
    [Stmt.other, Stmt.other, Stmt.other] ]                           -- recovery

/-- Number of blocking device calls a full top-to-bottom execution of a
notebook performs. -/
def runCount (nb : List (List Stmt)) : ℕ :=
  (nb.map fun c => c.count Stmt.deviceRun).sum

/-- The explicit arguments of a remote-QPU submission relevant to failure
handling, alongside the shot count: the polling timeout, and any retry or
recovery configuration.  A keyword argument the call does not pass is
`none`. -/
structure RemoteSubmission where
  shots : ℕ
  pollTimeoutSeconds : Option ℕ
  retryConfig : Option ℕ
  recoveryConfig : Option ℕ

/-- The cloud-device call of the checkpoint notebook (commented "run
circuit with a polling time of 5 days"):
`ionq_task = ionq.run(circ, s3_folder, shots=100, poll_timeout_seconds=5*24*60*60)`.
It passes an explicit polling timeout and nothing for retries or
recovery. -/
def ionqSubmission : RemoteSubmission :=
  { shots := 100
    pollTimeoutSeconds := some (5 * 24 * 60 * 60)
    retryConfig := none
    recoveryConfig := none }

/-! ## The post-processing cell (C6, C10)

The checkpoint notebook's "Post-processing step" cell: keep the tally
entries other than the all-zero string, sort them by descending count,
build the 0/1 matrix `Y` of their bit vectors, reduce it with sympy's
`Y.rref(iszerofunc=lambda x: x % 2==0)` (library code, returning a
(matrix, pivot-columns) pair), map every entry of the reduced matrix
through the helper `mod(·, 2)`, and print one equation per nonzero row.
Matrices are lists of rows over `ℚ` (sympy `Rational` entries). -/

/-- sympy's `mod_inverse(a, m)`, embedded by its mathematical definition:
the multiplicative inverse of `a` modulo `m`, i.e. the `x` in `[0, m)`
with `a·x ≡ 1 (mod m)`; the raise when no inverse exists
(`gcd(a, m) ≠ 1`) is modelled as `none`. -/
def mod_inverse (a : ℤ) (m : ℕ) : Option ℕ :=
  (List.range m).find? fun x => decide ((a * (x : ℤ)) % (m : ℤ) = 1)

/-- The helper of the post-processing cell:
`def mod(x, modulus): numer, denom = x.as_numer_denom();
return numer*mod_inverse(denom, modulus) % modulus`.
For a sympy `Rational`, `as_numer_denom` is the reduced numerator and
positive denominator, i.e. `Rat.num` and `Rat.den`; Python `%` on integers
returns a value in `[0, modulus)`, i.e. `Int.emod`; a raise from
`mod_inverse` propagates. -/
def pyMod (x : ℚ) (modulus : ℕ) : Option ℤ :=
  (mod_inverse (x.den : ℤ) modulus).map fun inv : ℕ =>
    (x.num * (inv : ℤ)) % (modulus : ℤ)

/-- Entrywise application of a possibly-raising function, left to right,
the first raise propagating to the whole result (Python exception
semantics). -/
def mapOption {α β : Type} (f : α → Option β) : List α → Option (List β)
  | [] => some []
  | a :: l =>
    match f a with
    | none => none
    | some b =>
      match mapOption f l with
      | none => none
      | some bs => some (b :: bs)

/-- `Y_new = Y_transformed[0].applyfunc(lambda x: mod(x,2))`: the mod-2
normalisation of every matrix entry (raising if any entry has an even
denominator). -/
def applyMod2 (M : List (List ℚ)) : Option (List (List ℚ)) :=
  mapOption (fun row => mapOption (fun x => (pyMod x 2).map fun z => (z : ℚ)) row) M

/-- `lAnswer = [ (k,v) for k,v in answer_plot.items() if k != "0"*n ]`
followed by `lAnswer.sort(key=lambda x: x[1], reverse=True)`: drop the
all-zero key and sort stably by descending count (Python `list.sort` is
stable; `List.mergeSort` is the stable sort). -/
def buildLAnswer (n : ℕ) (ap : List (List Char × ℕ)) : List (List Char × ℕ) :=
  (ap.filter fun e => decide ¬(e.1 = List.replicate n '0')).mergeSort
    fun a b => decide (b.2 ≤ a.2)

/-- The matrix `Y`: one row per retained tally entry, the row being the
digit values `int(c)` of the key's characters. -/
def buildY (n : ℕ) (ap : List (List Char × ℕ)) : List (List ℚ) :=
  (buildLAnswer n ap).map fun e => e.1.map fun c => if c = '1' then (1 : ℚ) else 0

/-- `Yr = [ "s[ "+str(i)+" ]" for i, v in enumerate(list(Y_new[r,:])) if v == 1 ]`:
the labels of the positions of a row holding `1`. -/
def rowNames (row : List ℚ) : List String :=
  (row.enum.filter fun p => decide (p.2 = 1)).map fun p => "s[ " ++ toString p.1 ++ " ]"

/-- The printing loop over the rows of `Y_new`: when a row has at least
one `1`, print the ` + `-join of its labels followed by ` = 0`.  The
output is modelled as the list of printed lines. -/
def eqLines (M : List (List ℚ)) : List String :=
  M.foldl
    (fun out row =>
      if (rowNames row).length > 0 then
        out ++ [String.intercalate " + " (rowNames row) ++ " = 0"]
      else out)
    []

/-- The whole post-processing cell, with the sympy reduction
`Y.rref(iszerofunc=…)` taken as an opaque parameter (it is library code):
build `Y` from the tally, reduce it, normalise every entry mod 2, print
the equations. -/
def postProcess (n : ℕ) (rrefFn : List (List ℚ) → List (List ℚ) × List ℕ)
    (ap : List (List Char × ℕ)) : Option (List String) :=
  (applyMod2 (rrefFn (buildY n ap)).1).map eqLines

/-- A stand-in reduction (identity matrix part, no pivots), used to
exercise the pipeline at concrete inputs. -/
def idRref (M : List (List ℚ)) : List (List ℚ) × List ℕ := (M, [])

/-- A concrete `answer_plot` tally of the `n = 3` run. -/
def answerPlotExample : List (List Char × ℕ) :=
  [(['1', '1', '0'], 5), (['0', '0', '0'], 4)]

/-- The rational `1/2`, an entry with even denominator. -/
def ratHalf : ℚ := ⟨1, 2, by decide, by decide⟩

/-! ## C1: the recovery step `s_calc = int(y1) ^ int(y2)` -/

/-- C1.  The recovery step of `part_001` lines 223-227: whenever `y1` and
`y2` are two distinct input-register strings a run of the circuit can put
into `answer_plot`, the value `s_calc = int(y1) ^ int(y2)` (XOR of the
strings read as decimal numerals) is the decimal reading of the hidden
string `s = '110'`, and `s` is the bitwise XOR of `y1` and `y2`. -/
theorem s_calc_recovers_s (y1 y2 : List Char)
    (h1 : y1 ∈ possibleKeys sChars) (h2 : y2 ∈ possibleKeys sChars)
    (hne : y1 ≠ y2) :
    pyInt y1 ^^^ pyInt y2 = pyInt sChars ∧ strXor y1 y2 = sChars := by
  have hkeys : possibleKeys sChars = [['0', '0', '0'], ['1', '1', '0']] := by decide
  rw [hkeys] at h1 h2
  simp only [List.mem_cons, List.not_mem_nil, or_false] at h1 h2
  rcases h1 with h1 | h1 <;> rcases h2 with h2 | h2 <;> subst h1 <;> subst h2
  · exact absurd rfl hne
  · decide
  · decide
  · exact absurd rfl hne

/-- Witness for `s_calc_recovers_s`: the two possible keys `'000'` and
`'110'` are distinct and XOR to `110`. -/
theorem s_calc_recovers_s_wit :
    (['0', '0', '0'] ∈ possibleKeys sChars ∧ ['1', '1', '0'] ∈ possibleKeys sChars ∧
      (['0', '0', '0'] : List Char) ≠ ['1', '1', '0']) ∧
    (pyInt ['0', '0', '0'] ^^^ pyInt ['1', '1', '0'] = pyInt sChars ∧
      strXor ['0', '0', '0'] ['1', '1', '0'] = sChars) :=
  ⟨⟨by decide, by decide, by decide⟩,
    s_calc_recovers_s _ _ (by decide) (by decide) (by decide)⟩

/-! ## C3: structure of the oracle gate block -/

/-- A `flatMap` whose body is an if-then-else with empty `else` branch is a
`flatMap` over the filtered list. -/
lemma flatMap_ite_eq_filter_flatMap {α β : Type} (p : α → Prop) [DecidablePred p]
    (g : α → List β) (l : List α) :
    (l.flatMap fun a => if p a then g a else []) =
      (l.filter fun a => decide (p a)).flatMap g := by
  induction l with
  | nil => rfl
  | cons a l ih =>
    by_cases ha : p a <;>
      simp [List.flatMap_cons, List.filter_cons, ha, ih]

/-- The indices `i < s.length` with `s[i] = '1'` are as many as the `'1'`
characters of `s`. -/
lemma length_filter_range_getD (s : List Char) :
    ((List.range s.length).filter fun i => decide (s.getD i '0' = '1')).length =
      s.count '1' := by
  induction s with
  | nil => rfl
  | cons c cs ih =>
    rw [← List.countP_eq_length_filter] at ih ⊢
    simp only [List.length_cons, List.range_succ_eq_map, List.countP_cons,
      List.countP_map, List.getD_cons_zero]
    have : ((fun i => decide (((c :: cs).getD i '0') = '1')) ∘ Nat.succ) =
        fun i => decide (cs.getD i '0' = '1') := by
      funext i; rfl
    rw [this, ih, List.count_cons]
    by_cases hc : c = '1' <;> simp [hc, List.count, eq_comm (a := c)]

/-- C3.  The oracle-construction loop of `part_001` lines 147-150 emits a
CNOT with control `i` and target `n + j` for exactly the pairs `(i, j)`
with `s[i] = '1'` and `j < n`, ordered by increasing `i` and then
increasing `j`; hence the circuit consists of the two Hadamard layers on
qubits `0 .. n-1` with exactly `n · popcount s` CNOT gates, and no other
gate, in between. -/
theorem oracle_structure (s : List Char) :
    simonCircuit s = hLayer s.length ++ oracleGates s s.length ++ hLayer s.length ∧
    oracleGates s s.length =
      ((List.range s.length).filter fun i => decide (s.getD i '0' = '1')).flatMap
        (fun i => (List.range s.length).map fun j => Gate.cnot i (s.length + j)) ∧
    (oracleGates s s.length).length = s.length * s.count '1' := by
  refine ⟨rfl, flatMap_ite_eq_filter_flatMap _ _ _, ?_⟩
  rw [oracleGates, flatMap_ite_eq_filter_flatMap, List.length_flatMap]
  have : ∀ l : List ℕ,
      (l.map (List.length ∘ fun i =>
        (List.range s.length).map fun j => Gate.cnot i (s.length + j))).sum =
        l.length * s.length := by
    intro l
    induction l with
    | nil => simp
    | cons a l ih =>
      simp only [List.map_cons, List.sum_cons, Function.comp_apply,
        List.length_map, List.length_range, ih, List.length_cons]
      ring
  rw [this, length_filter_range_getD, Nat.mul_comm]

/-- Instantiation of `oracle_structure` at the hard-coded `s = '110'`. -/
theorem oracle_structure_wit :
    simonCircuit sChars =
      hLayer sChars.length ++ oracleGates sChars sChars.length ++
        hLayer sChars.length ∧
    oracleGates sChars sChars.length =
      ((List.range sChars.length).filter fun i =>
          decide (sChars.getD i '0' = '1')).flatMap
        (fun i => (List.range sChars.length).map fun j =>
          Gate.cnot i (sChars.length + j)) ∧
    (oracleGates sChars sChars.length).length = sChars.length * sChars.count '1' :=
  oracle_structure sChars

/-! ## C4: what the oracle block actually computes -/

/-- Folding the CNOT block of one control `i` over a basis state: if bit
`i` is clear nothing happens, and if it is set every target mask is
XORed in. -/
lemma foldl_cnot_block (n i : ℕ) (hi : i < n) (js : List ℕ) (x : ℕ) :
    (js.map fun j => Gate.cnot i (n + j)).foldl cnotStep x =
      if x.testBit i then x ^^^ blockMask n js else x := by
  induction js generalizing x with
  | nil =>
    cases h : x.testBit i <;> simp [h, blockMask]
  | cons j js ih =>
    simp only [List.map_cons, List.foldl_cons]
    have hmask : blockMask n (j :: js) = 2 ^ (n + j) ^^^ blockMask n js := rfl
    cases h : x.testBit i with
    | false =>
      have hstep : cnotStep x (Gate.cnot i (n + j)) = x := by simp [cnotStep, h]
      rw [hstep, ih, h]
      simp
    | true =>
      have hstep : cnotStep x (Gate.cnot i (n + j)) = x ^^^ 2 ^ (n + j) := by
        simp [cnotStep, h]
      have hb : (x ^^^ 2 ^ (n + j)).testBit i = true := by
        rw [Nat.testBit_xor, h, Nat.testBit_two_pow]
        have hne : ¬(n + j = i) := by omega
        simp [hne]
      rw [hstep, ih, hb, if_pos rfl, if_pos rfl, hmask, Nat.xor_assoc]

/-- XOR folds starting from an arbitrary initial value. -/
lemma foldr_xor_init (l : List ℕ) (a : ℕ) :
    l.foldr (· ^^^ ·) a = l.foldr (· ^^^ ·) 0 ^^^ a := by
  induction l with
  | nil => simp
  | cons b l ih => simp only [List.foldr_cons, ih, Nat.xor_assoc]

/-- Left shifts distribute over XOR. -/
lemma shiftLeft_xor (a b n : ℕ) : a <<< n ^^^ b <<< n = (a ^^^ b) <<< n := by
  apply Nat.eq_of_testBit_eq
  intro j
  simp only [Nat.testBit_xor, Nat.testBit_shiftLeft]
  by_cases h : n ≤ j <;> simp [h, ge_iff_le]

/-- Adjoining the next power of two to an all-ones block. -/
lemma two_pow_sub_one_xor (k : ℕ) : (2 ^ k - 1) ^^^ 2 ^ k = 2 ^ (k + 1) - 1 := by
  apply Nat.eq_of_testBit_eq
  intro j
  simp only [Nat.testBit_xor, Nat.testBit_two_pow_sub_one, Nat.testBit_two_pow]
  by_cases h1 : j < k
  · have h2 : ¬(k = j) := by omega
    have h3 : j < k + 1 := by omega
    simp [h1, h2, h3]
  · by_cases h2 : k = j
    · have h3 : j < k + 1 := by omega
      simp [h1, h2, h3]
    · have h3 : ¬(j < k + 1) := by omega
      simp [h1, h2, h3]

/-- The mask of a full block of `n` targets: all the bits `n .. 2n-1`. -/
lemma blockMask_range (n k : ℕ) : blockMask n (List.range k) = (2 ^ k - 1) <<< n := by
  induction k with
  | zero => simp [blockMask, Nat.shiftLeft_eq]
  | succ k ih =>
    rw [blockMask, List.range_succ, List.map_append, List.foldr_append]
    simp only [List.map_cons, List.map_nil, List.foldr_cons, List.foldr_nil,
      Nat.xor_zero]
    rw [foldr_xor_init, ← blockMask, ih, pow_add]
    have h1 : (2 : ℕ) ^ n * 2 ^ k = 2 ^ k <<< n := by
      rw [Nat.shiftLeft_eq, Nat.mul_comm]
    rw [h1, shiftLeft_xor, two_pow_sub_one_xor]

/-- `bparity` only looks at the bits named in the list. -/
lemma bparity_congr (l : List ℕ) (x y : ℕ)
    (h : ∀ i ∈ l, x.testBit i = y.testBit i) : bparity l x = bparity l y := by
  induction l with
  | nil => rfl
  | cons i l ih =>
    simp only [bparity, List.foldr_cons]
    rw [h i (List.mem_cons_self i l)]
    have := ih fun j hj => h j (List.mem_cons_of_mem i hj)
    simp only [bparity] at this
    rw [this]

/-- Folding all the control blocks: the input register is untouched and
the second register receives the all-ones mask exactly when an odd number
of the set controls fire. -/
lemma foldl_ctrl_blocks (n : ℕ) (l : List ℕ) :
    ∀ x : ℕ, (∀ i ∈ l, i < n) →
      (l.flatMap fun i => (List.range n).map fun j => Gate.cnot i (n + j)).foldl
          cnotStep x =
        x ^^^ if bparity l x then (2 ^ n - 1) <<< n else 0 := by
  induction l with
  | nil => intro x _; simp [bparity]
  | cons i l ih =>
    intro x hl
    have hi : i < n := hl i (List.mem_cons_self i l)
    rw [List.flatMap_cons, List.foldl_append,
      foldl_cnot_block n i hi (List.range n) x, blockMask_range]
    have hl' : ∀ j ∈ l, j < n := fun j hj => hl j (List.mem_cons_of_mem i hj)
    have hmask : ∀ j, j < n → ((2 ^ n - 1) <<< n).testBit j = false := by
      intro j hj
      rw [Nat.testBit_shiftLeft]
      simp [Nat.not_le_of_lt hj, ge_iff_le]
    cases h : x.testBit i with
    | false =>
      rw [if_neg (by simp), ih x hl']
      have hpar : bparity (i :: l) x = bparity l x := by simp [bparity, h]
      rw [hpar]
    | true =>
      have hbits : ∀ j ∈ l, (x ^^^ (2 ^ n - 1) <<< n).testBit j = x.testBit j := by
        intro j hj
        rw [Nat.testBit_xor, hmask j (hl' j hj)]
        simp
      rw [if_pos rfl, ih _ hl', bparity_congr l _ _ hbits]
      have hpar : bparity (i :: l) x = !(bparity l x) := by simp [bparity, h]
      rw [hpar]
      cases hb : bparity l x <;>
        simp [Nat.xor_assoc, Nat.xor_self, Nat.xor_zero]

/-- High bits of `x' ^^^ (m <<< n)` for `x' < 2^n`. -/
lemma xor_shiftLeft_shiftRight (x' m n : ℕ) (hx : x' < 2 ^ n) :
    (x' ^^^ m <<< n) >>> n = m := by
  apply Nat.eq_of_testBit_eq
  intro j
  rw [Nat.testBit_shiftRight, Nat.testBit_xor, Nat.testBit_shiftLeft]
  have hfalse : x'.testBit (n + j) = false :=
    Nat.testBit_eq_false_of_lt
      (lt_of_lt_of_le hx (Nat.pow_le_pow_right (by omega) (by omega)))
  simp [hfalse, ge_iff_le, Nat.add_sub_cancel_left]

/-- Closed form of the oracle's function: it is the selected-bit parity of
the input, broadcast to all `n` bits of the second register. -/
lemma fOracle_eq (s : List Char) (x : ℕ) :
    fOracle s x =
      if bparity (ctrlList s) (x % 2 ^ s.length) then 2 ^ s.length - 1 else 0 := by
  have hsub : ∀ i ∈ ctrlList s, i < s.length := by
    intro i hi
    have := List.mem_filter.mp hi
    exact List.mem_range.mp this.1
  have hx : x % 2 ^ s.length < 2 ^ s.length :=
    Nat.mod_lt _ (Nat.pow_pos (by omega))
  rw [fOracle, oracleGates, flatMap_ite_eq_filter_flatMap, ← ctrlList,
    foldl_ctrl_blocks s.length (ctrlList s) _ hsub]
  cases hb : bparity (ctrlList s) (x % 2 ^ s.length) with
  | true =>
    rw [if_pos rfl, if_pos rfl, xor_shiftLeft_shiftRight _ _ _ hx]
  | false =>
    rw [if_neg (by simp), if_neg (by simp), Nat.xor_zero,
      Nat.shiftRight_eq_div_pow, Nat.div_eq_of_lt hx]

/-- Unfolding `bparity` at a cons. -/
lemma bparity_cons (i : ℕ) (l : List ℕ) (x : ℕ) :
    bparity (i :: l) x = Bool.xor (x.testBit i) (bparity l x) := rfl

/-- Parity of the zero state. -/
lemma bparity_zero (l : List ℕ) : bparity l 0 = false := by
  induction l with
  | nil => rfl
  | cons i l ih =>
    rw [bparity_cons, ih, Nat.zero_testBit]
    rfl

/-- `bparity` is additive over XOR of the state. -/
lemma bparity_xor (l : List ℕ) (x y : ℕ) :
    bparity l (x ^^^ y) = Bool.xor (bparity l x) (bparity l y) := by
  induction l with
  | nil => rfl
  | cons i l ih =>
    rw [bparity_cons, bparity_cons, bparity_cons, Nat.testBit_xor, ih]
    generalize x.testBit i = a
    generalize y.testBit i = b
    generalize bparity l x = c
    generalize bparity l y = d
    cases a <;> cases b <;> cases c <;> cases d <;> rfl

/-- Parity of a single bit: the number of times its index occurs. -/
lemma bparity_two_pow (l : List ℕ) (i0 : ℕ) :
    bparity l (2 ^ i0) = decide (Odd (l.count i0)) := by
  induction l with
  | nil => simp [bparity]
  | cons i l ih =>
    rw [bparity_cons, Nat.testBit_two_pow, ih, List.count_cons]
    by_cases h : i = i0
    · subst h
      by_cases ho : Odd (List.count i l) <;> simp [ho, Nat.odd_add_one]
    · have h' : ¬(i0 = i) := fun he => h he.symm
      simp [h, h']

/-- If every listed bit of `x` is set, `bparity` is the parity of the list
length. -/
lemma bparity_all_true (l : List ℕ) (x : ℕ) (h : ∀ i ∈ l, x.testBit i = true) :
    bparity l x = decide (Odd l.length) := by
  induction l with
  | nil => simp [bparity]
  | cons i l ih =>
    rw [bparity_cons, h i (List.mem_cons_self i l),
      ih fun j hj => h j (List.mem_cons_of_mem i hj)]
    by_cases ho : Odd l.length <;> simp [ho, Nat.odd_add_one]

/-- Bit `i` of `strToNat s` is the character `s[i]` (with `'0'` padding). -/
lemma testBit_strToNat (s : List Char) :
    ∀ i : ℕ, (strToNat s).testBit i = decide (s.getD i '0' = '1') := by
  induction s with
  | nil => intro i; simp [strToNat, Nat.zero_testBit]
  | cons c cs ih =>
    intro i
    cases i with
    | zero =>
      rw [strToNat, Nat.testBit_zero, List.getD_cons_zero]
      by_cases hc : c = '1' <;> simp [hc] <;> omega
    | succ i =>
      rw [strToNat, Nat.testBit_succ, List.getD_cons_succ, ← ih i]
      have : ((if c = '1' then 1 else 0) + 2 * strToNat cs) / 2 = strToNat cs := by
        by_cases hc : c = '1' <;> simp [hc] <;> omega
      rw [this]

/-- `strToNat s` is an `s.length`-bit number. -/
lemma strToNat_lt (s : List Char) : strToNat s < 2 ^ s.length := by
  induction s with
  | nil => simp [strToNat]
  | cons c cs ih =>
    rw [strToNat, List.length_cons, pow_succ]
    by_cases hc : c = '1' <;> simp [hc] <;> omega

/-- The two parity classes inside `range (2^n)` have the same size
`2^(n-1)`: XOR with a bit whose index occurs an odd number of times in
the list is an involution exchanging them. -/
lemma card_bparity_class (n i0 : ℕ) (l : List ℕ) (hi0 : i0 < n)
    (hodd : Odd (l.count i0)) (b : Bool) :
    ((Finset.range (2 ^ n)).filter fun x => bparity l x = b).card = 2 ^ (n - 1) := by
  have hpow : (2 : ℕ) ^ i0 < 2 ^ n := Nat.pow_lt_pow_right (by omega) hi0
  have hflip : ∀ x : ℕ, bparity l (x ^^^ 2 ^ i0) = !(bparity l x) := by
    intro x
    rw [bparity_xor, bparity_two_pow]
    simp only [hodd, decide_True]
    cases bparity l x <;> rfl
  have hmem : ∀ x ∈ Finset.range (2 ^ n), x ^^^ 2 ^ i0 ∈ Finset.range (2 ^ n) := by
    intro x hx
    rw [Finset.mem_range] at hx ⊢
    exact Nat.xor_lt_two_pow hx hpow
  have hswap : ∀ c : Bool,
      ((Finset.range (2 ^ n)).filter fun x => bparity l x = c).card =
        ((Finset.range (2 ^ n)).filter fun x => bparity l x = !c).card := by
    intro c
    refine Finset.card_bij' (fun x _ => x ^^^ 2 ^ i0) (fun x _ => x ^^^ 2 ^ i0)
      ?_ ?_ ?_ ?_
    · intro a ha
      rw [Finset.mem_filter] at ha ⊢
      exact ⟨hmem a ha.1, by rw [hflip, ha.2]⟩
    · intro a ha
      rw [Finset.mem_filter] at ha ⊢
      refine ⟨hmem a ha.1, ?_⟩
      rw [hflip, ha.2]
      cases c <;> rfl
    · intro a _
      exact Nat.xor_cancel_right _ _
    · intro a _
      exact Nat.xor_cancel_right _ _
  have hsplit :
      ((Finset.range (2 ^ n)).filter fun x => bparity l x = b).card +
        ((Finset.range (2 ^ n)).filter fun x => bparity l x = !b).card = 2 ^ n := by
    have hneg : ∀ x ∈ Finset.range (2 ^ n),
        (¬(bparity l x = b)) ↔ (bparity l x = !b) := by
      intro x _
      cases hx : bparity l x <;> cases b <;> simp
    have h1 := Finset.filter_card_add_filter_neg_card_eq_card
      (s := Finset.range (2 ^ n)) (p := fun x => bparity l x = b)
    rw [Finset.card_range] at h1
    rw [Finset.filter_congr hneg] at h1
    exact h1
  have hn : 1 ≤ n := by omega
  have htwo : (2 : ℕ) ^ n = 2 * 2 ^ (n - 1) := by
    have h := pow_succ 2 (n - 1)
    have hsub : n - 1 + 1 = n := by omega
    rw [hsub] at h
    rw [h]
    ring
  have hs2 := hswap b
  omega

/-- C4 (counterexample).  The claim "the oracle's `f` has the Simon
promise `f(x) = f(x ⊕ s)` and is exactly two-to-one for every `s` with a
`'1'` bit" is false: for the notebook's own `s = '110'` the attained
output `f(0) = 0` has four preimages, not two. -/
theorem oracle_not_two_to_one :
    ¬ ∀ s : List Char, '1' ∈ s →
        (∀ x < 2 ^ s.length, fOracle s (x ^^^ strToNat s) = fOracle s x) ∧
        ∀ z ∈ (Finset.range (2 ^ s.length)).image (fOracle s),
          ((Finset.range (2 ^ s.length)).filter fun x => fOracle s x = z).card = 2 := by
  intro h
  have h2 := (h sChars (by decide)).2 0 (by decide)
  have h4 : ((Finset.range (2 ^ sChars.length)).filter
      fun x => fOracle sChars x = 0).card = 4 := by decide
  rw [h4] at h2
  omega

/-- C4 (amended).  What the emitted CNOTs actually implement: for every
hidden string `s` with at least one `'1'` bit, the function `f` on the
second register satisfies `f(x) = f(x ⊕ s)` for all `n`-bit `x` exactly
when `s` has an even number of `'1'`s, and every attained output value has
exactly `2^(n-1)` preimages among the `2^n` inputs (so `f` is two-to-one
only in the case `n = 2`). -/
theorem oracle_promise_amended (s : List Char) (hs : '1' ∈ s) :
    ((∀ x < 2 ^ s.length, fOracle s (x ^^^ strToNat s) = fOracle s x) ↔
      Even (s.count '1')) ∧
    ∀ z ∈ (Finset.range (2 ^ s.length)).image (fOracle s),
      ((Finset.range (2 ^ s.length)).filter fun x => fOracle s x = z).card =
        2 ^ (s.length - 1) := by
  obtain ⟨i0, hi0, hgi0⟩ := List.mem_iff_getElem.mp hs
  have hmem0 : i0 ∈ ctrlList s := by
    rw [ctrlList, List.mem_filter, List.mem_range]
    refine ⟨hi0, ?_⟩
    rw [List.getD_eq_getElem s '0' hi0, hgi0]
    simp
  have hn : 1 ≤ s.length := by omega
  have h2n : 2 ≤ 2 ^ s.length := by
    calc 2 = 2 ^ 1 := rfl
    _ ≤ 2 ^ s.length := Nat.pow_le_pow_right (by omega) hn
  have hnodup : (ctrlList s).Nodup := List.Nodup.filter _ (List.nodup_range _)
  have hcount1 : (ctrlList s).count i0 = 1 := List.count_eq_one_of_mem hnodup hmem0
  have hodd : Odd ((ctrlList s).count i0) := by rw [hcount1]; exact odd_one
  have hsub : ∀ i ∈ ctrlList s, i < s.length := by
    intro i hi
    exact List.mem_range.mp (List.mem_filter.mp hi).1
  have hslt : strToNat s < 2 ^ s.length := strToNat_lt s
  have hsPar : bparity (ctrlList s) (strToNat s) = decide (Odd (s.count '1')) := by
    rw [bparity_all_true]
    · rw [← length_filter_range_getD s, ctrlList]
    · intro i hi
      rw [testBit_strToNat]
      have := (List.mem_filter.mp hi).2
      simpa using this
  constructor
  · constructor
    · intro h
      have h0 := h 0 (by omega)
      rw [fOracle_eq, fOracle_eq, Nat.zero_xor,
        Nat.mod_eq_of_lt hslt, Nat.zero_mod, bparity_zero] at h0
      have hzero : (if (false = true) then 2 ^ s.length - 1 else 0) = (0 : ℕ) := by
        simp
      rw [hzero] at h0
      cases hb : bparity (ctrlList s) (strToNat s) with
      | false =>
        rw [hb] at hsPar
        have hno : ¬ Odd (s.count '1') := by
          intro hcon
          simp [hcon] at hsPar
        exact Nat.not_odd_iff_even.mp hno
      | true =>
        rw [hb, if_pos rfl] at h0
        omega
    · intro heven x hx
      rw [fOracle_eq, fOracle_eq,
        Nat.mod_eq_of_lt (Nat.xor_lt_two_pow hx hslt), Nat.mod_eq_of_lt hx,
        bparity_xor, hsPar]
      have : ¬ Odd (s.count '1') := Nat.not_odd_iff_even.mpr heven
      simp [this]
  · intro z hz
    obtain ⟨x0, hx0, hfx0⟩ := Finset.mem_image.mp hz
    rw [Finset.mem_range] at hx0
    rw [fOracle_eq, Nat.mod_eq_of_lt hx0] at hfx0
    have hcongr : ∀ x ∈ Finset.range (2 ^ s.length),
        fOracle s x = z ↔ bparity (ctrlList s) x = bparity (ctrlList s) x0 := by
      intro x hx
      rw [Finset.mem_range] at hx
      rw [fOracle_eq, Nat.mod_eq_of_lt hx, ← hfx0]
      cases hb : bparity (ctrlList s) x <;>
        cases hb0 : bparity (ctrlList s) x0 <;> simp <;> omega
    rw [Finset.filter_congr hcongr]
    exact card_bparity_class s.length i0 (ctrlList s) hi0 hodd _

/-- Witness for `oracle_promise_amended` at the notebook's hard-coded
`s = '110'`: the promise holds (popcount 2 is even) and every attained
output has `2^(3-1) = 4` preimages. -/
theorem oracle_promise_amended_wit :
    ('1' ∈ sChars) ∧
    (((∀ x < 2 ^ sChars.length,
        fOracle sChars (x ^^^ strToNat sChars) = fOracle sChars x) ↔
          Even (sChars.count '1')) ∧
      ∀ z ∈ (Finset.range (2 ^ sChars.length)).image (fOracle sChars),
        ((Finset.range (2 ^ sChars.length)).filter fun x => fOracle sChars x = z).card =
          2 ^ (sChars.length - 1)) :=
  ⟨by decide, oracle_promise_amended sChars (by decide)⟩

/-! ## C5 and C9: the tally loop and the recovery unpacking -/

/-- The dict-membership test of the tally loop. -/
lemma any_key_iff (ap : List (List Char × ℕ)) (p : List Char) :
    (ap.any fun e => decide (e.1 = p)) = true ↔ p ∈ ap.map Prod.fst := by
  rw [List.any_eq_true, List.mem_map]
  constructor
  · rintro ⟨e, he, hd⟩
    exact ⟨e, he, by simpa using hd⟩
  · rintro ⟨e, he, hd⟩
    exact ⟨e, he, by simpa using hd⟩

/-- Updating an absent key leaves the entries untouched. -/
lemma map_upd_of_not_mem (ap : List (List Char × ℕ)) (p : List Char) (v : ℕ)
    (hp : p ∉ ap.map Prod.fst) :
    (ap.map fun e => if e.1 = p then (e.1, e.2 + v) else e) = ap := by
  have h : ∀ e ∈ ap, (if e.1 = p then (e.1, e.2 + v) else e) = e := by
    intro e he
    rw [if_neg]
    intro hc
    exact hp (List.mem_map.mpr ⟨e, he, hc⟩)
  rw [List.map_congr_left h]
  simp

/-- Keys after one dict update: unchanged when present, appended when
absent. -/
lemma keys_updAdd (ap : List (List Char × ℕ)) (p : List Char) (v : ℕ) :
    (updAdd ap p v).map Prod.fst =
      if p ∈ ap.map Prod.fst then ap.map Prod.fst else ap.map Prod.fst ++ [p] := by
  by_cases hp : p ∈ ap.map Prod.fst
  · rw [updAdd, if_pos ((any_key_iff ap p).mpr hp), if_pos hp, List.map_map]
    apply List.map_congr_left
    intro e _
    by_cases he : e.1 = p <;> simp [he]
  · rw [updAdd, if_neg (fun hc => hp ((any_key_iff ap p).mp hc)), if_neg hp,
      List.map_append]
    rfl

/-- Key membership after one dict update. -/
lemma mem_keys_updAdd (ap : List (List Char × ℕ)) (p q : List Char) (v : ℕ) :
    q ∈ (updAdd ap p v).map Prod.fst ↔ q ∈ ap.map Prod.fst ∨ q = p := by
  rw [keys_updAdd]
  by_cases hp : p ∈ ap.map Prod.fst
  · rw [if_pos hp]
    constructor
    · exact Or.inl
    · rintro (h | rfl)
      · exact h
      · exact hp
  · rw [if_neg hp]
    simp [List.mem_append]

/-- One dict update keeps the keys distinct. -/
lemma nodup_keys_updAdd (ap : List (List Char × ℕ)) (p : List Char) (v : ℕ)
    (hnd : (ap.map Prod.fst).Nodup) : ((updAdd ap p v).map Prod.fst).Nodup := by
  rw [keys_updAdd]
  by_cases hp : p ∈ ap.map Prod.fst
  · rw [if_pos hp]; exact hnd
  · rw [if_neg hp]
    rw [List.nodup_append]
    exact ⟨hnd, List.nodup_singleton p, by
      intro a ha hmem
      rw [List.mem_singleton] at hmem
      subst hmem
      exact hp ha⟩

/-- Value read off an association list at a cons. -/
lemma getVal_cons (e : List Char × ℕ) (l : List (List Char × ℕ)) (q : List Char) :
    getVal (e :: l) q = (if e.1 = q then e.2 else 0) + getVal l q := by
  by_cases h : e.1 = q <;> simp [getVal, h]

/-- Adding `v` at a present key `p` (keys distinct) bumps the value at `p`
by `v` and no other. -/
lemma getVal_map_upd (p q : List Char) (v : ℕ) :
    ∀ ap : List (List Char × ℕ), (ap.map Prod.fst).Nodup → p ∈ ap.map Prod.fst →
      getVal (ap.map fun e => if e.1 = p then (e.1, e.2 + v) else e) q =
        getVal ap q + if q = p then v else 0 := by
  intro ap
  induction ap with
  | nil => intro _ hp; simp at hp
  | cons e ap ih =>
    intro hnd hp
    rw [List.map_cons, List.nodup_cons] at hnd
    rw [List.map_cons]
    by_cases he : e.1 = p
    · have hptail : p ∉ ap.map Prod.fst := he ▸ hnd.1
      rw [if_pos he, map_upd_of_not_mem ap p v hptail, getVal_cons, getVal_cons]
      by_cases hq : e.1 = q
      · have hqp : q = p := by rw [← hq, he]
        rw [if_pos hq, if_pos hq, if_pos hqp]
        omega
      · have hqp : ¬(q = p) := fun hc => hq (by rw [hc, he])
        rw [if_neg hq, if_neg hq, if_neg hqp]
        omega
    · have hptail : p ∈ ap.map Prod.fst := by
        rcases List.mem_cons.mp (List.map_cons Prod.fst e ap ▸ hp) with h | h
        · exact absurd h.symm he
        · exact h
      rw [if_neg he, getVal_cons, getVal_cons, ih hnd.2 hptail]
      omega

/-- Adding `v` at a present key (keys distinct) grows the total by `v`. -/
lemma sumV_map_upd (p : List Char) (v : ℕ) :
    ∀ ap : List (List Char × ℕ), (ap.map Prod.fst).Nodup → p ∈ ap.map Prod.fst →
      ((ap.map fun e => if e.1 = p then (e.1, e.2 + v) else e).map Prod.snd).sum =
        (ap.map Prod.snd).sum + v := by
  intro ap
  induction ap with
  | nil => intro _ hp; simp at hp
  | cons e ap ih =>
    intro hnd hp
    rw [List.map_cons, List.nodup_cons] at hnd
    rw [List.map_cons]
    by_cases he : e.1 = p
    · have hptail : p ∉ ap.map Prod.fst := he ▸ hnd.1
      rw [if_pos he, map_upd_of_not_mem ap p v hptail]
      simp only [List.map_cons, List.sum_cons]
      omega
    · have hptail : p ∈ ap.map Prod.fst := by
        rcases List.mem_cons.mp (List.map_cons Prod.fst e ap ▸ hp) with h | h
        · exact absurd h.symm he
        · exact h
      rw [if_neg he]
      simp only [List.map_cons, List.sum_cons]
      rw [ih hnd.2 hptail]
      omega

/-- Effect of one dict update on the value at any key (distinct keys). -/
lemma getVal_updAdd (ap : List (List Char × ℕ)) (p q : List Char) (v : ℕ)
    (hnd : (ap.map Prod.fst).Nodup) :
    getVal (updAdd ap p v) q = getVal ap q + if q = p then v else 0 := by
  by_cases hp : p ∈ ap.map Prod.fst
  · rw [updAdd, if_pos ((any_key_iff ap p).mpr hp)]
    exact getVal_map_upd p q v ap hnd hp
  · rw [updAdd, if_neg (fun hc => hp ((any_key_iff ap p).mp hc)), getVal,
      List.filter_append, List.map_append, List.sum_append, ← getVal]
    have hlast : getVal [(p, v)] q = if q = p then v else 0 := by
      by_cases hq : q = p
      · rw [if_pos hq, hq]
        simp [getVal]
      · rw [if_neg hq]
        have hne : ¬(p = q) := fun hc => hq hc.symm
        simp [getVal, hne]
    rw [← hlast]
    rfl

/-- Effect of one dict update on the total of the counts (distinct keys). -/
lemma sumV_updAdd (ap : List (List Char × ℕ)) (p : List Char) (v : ℕ)
    (hnd : (ap.map Prod.fst).Nodup) :
    ((updAdd ap p v).map Prod.snd).sum = (ap.map Prod.snd).sum + v := by
  by_cases hp : p ∈ ap.map Prod.fst
  · rw [updAdd, if_pos ((any_key_iff ap p).mpr hp)]
    exact sumV_map_upd p v ap hnd hp
  · rw [updAdd, if_neg (fun hc => hp ((any_key_iff ap p).mp hc))]
    simp

/-- Key membership across the whole tally fold. -/
lemma mem_keys_fold (n : ℕ) (mc : List (List Char × ℕ)) :
    ∀ (acc : List (List Char × ℕ)) (p : List Char),
      p ∈ ((mc.foldl (fun ap e => updAdd ap (e.1.take n) e.2) acc).map Prod.fst) ↔
        p ∈ acc.map Prod.fst ∨ p ∈ mc.map fun e => e.1.take n := by
  induction mc with
  | nil => intro acc p; simp
  | cons e mc ih =>
    intro acc p
    rw [List.foldl_cons, ih, mem_keys_updAdd, List.map_cons, List.mem_cons]
    tauto

/-- The tally fold keeps the keys distinct. -/
lemma nodup_keys_fold (n : ℕ) (mc : List (List Char × ℕ)) :
    ∀ acc : List (List Char × ℕ), (acc.map Prod.fst).Nodup →
      ((mc.foldl (fun ap e => updAdd ap (e.1.take n) e.2) acc).map Prod.fst).Nodup := by
  induction mc with
  | nil => intro acc h; exact h
  | cons e mc ih =>
    intro acc h
    rw [List.foldl_cons]
    exact ih _ (nodup_keys_updAdd _ _ _ h)

/-- Value at any key across the whole tally fold: the accumulated value
plus the total count of the entries whose truncated key is `p`. -/
lemma getVal_fold (n : ℕ) (mc : List (List Char × ℕ)) :
    ∀ acc : List (List Char × ℕ), (acc.map Prod.fst).Nodup → ∀ p,
      getVal (mc.foldl (fun ap e => updAdd ap (e.1.take n) e.2) acc) p =
        getVal acc p + ((mc.filter fun e => decide (e.1.take n = p)).map Prod.snd).sum := by
  induction mc with
  | nil => intro acc _ p; simp
  | cons e mc ih =>
    intro acc hnd p
    rw [List.foldl_cons, ih _ (nodup_keys_updAdd _ _ _ hnd) p,
      getVal_updAdd _ _ _ _ hnd, List.filter_cons]
    by_cases hq : e.1.take n = p
    · have hq' : p = e.1.take n := hq.symm
      simp only [hq, decide_True, if_true, if_pos rfl, List.map_cons, List.sum_cons]
      omega
    · have hq' : ¬(p = e.1.take n) := fun hc => hq hc.symm
      simp only [hq, decide_False, Bool.false_eq_true, if_false, if_neg hq']
      omega

/-- The tally fold preserves the total of the counts. -/
lemma sumV_fold (n : ℕ) (mc : List (List Char × ℕ)) :
    ∀ acc : List (List Char × ℕ), (acc.map Prod.fst).Nodup →
      ((mc.foldl (fun ap e => updAdd ap (e.1.take n) e.2) acc).map Prod.snd).sum =
        (acc.map Prod.snd).sum + (mc.map Prod.snd).sum := by
  induction mc with
  | nil => intro acc _; simp
  | cons e mc ih =>
    intro acc hnd
    rw [List.foldl_cons, ih _ (nodup_keys_updAdd _ _ _ hnd),
      sumV_updAdd _ _ _ hnd]
    simp only [List.map_cons, List.sum_cons]
    omega

/-- C5.  The tally loop of `part_001` lines 195-207 is a count-preserving
grouping: `answer_plot` is a dict (distinct keys) whose keys are exactly
the first-`n`-character truncations of the observed result strings, each
key holds the sum of the counts of the result strings sharing that
truncation, and the total of all its values equals the total of all
measurement counts. -/
theorem answer_plot_tally (n : ℕ) (mc : List (List Char × ℕ)) :
    ((answerPlot n mc).map Prod.fst).Nodup ∧
    (∀ p, p ∈ (answerPlot n mc).map Prod.fst ↔ p ∈ mc.map fun e => e.1.take n) ∧
    (∀ p, getVal (answerPlot n mc) p =
      ((mc.filter fun e => decide (e.1.take n = p)).map Prod.snd).sum) ∧
    ((answerPlot n mc).map Prod.snd).sum = (mc.map Prod.snd).sum := by
  refine ⟨nodup_keys_fold n mc [] (by simp), fun p => ?_, fun p => ?_, ?_⟩
  · rw [answerPlot, mem_keys_fold n mc []]
    simp
  · rw [answerPlot, getVal_fold n mc [] (by simp) p]
    simp [getVal]
  · rw [answerPlot, sumV_fold n mc [] (by simp)]
    simp

/-- Instantiation of `answer_plot_tally` at a concrete dict: the key
`'000'` of the tally holds the total count of the result strings whose
first three characters are `'000'`. -/
theorem answer_plot_tally_wit :
    getVal (answerPlot 3 simonTallyExample) ['0', '0', '0'] =
      ((simonTallyExample.filter fun e =>
        decide (e.1.take 3 = ['0', '0', '0'])).map Prod.snd).sum :=
  (answer_plot_tally 3 simonTallyExample).2.2.1 ['0', '0', '0']

/-- The Python 2-tuple unpacking succeeds exactly on two-element lists. -/
lemma unpack2_isSome {α : Type} (l : List α) :
    (unpack2 l).isSome = true ↔ l.length = 2 := by
  match l with
  | [] => simp [unpack2]
  | [a] => simp [unpack2]
  | [a, b] => simp [unpack2]
  | a :: b :: c :: t => simp [unpack2]

/-- C9.  The recovery step `y1, y2 = answer_plot.keys()` of `part_001`
line 223 succeeds — and an `s_calc` is produced — exactly when the tally
holds two distinct truncated strings; with fewer or more distinct keys the
unpacking raises `ValueError` (modelled by `none`). -/
theorem recovery_unpack_iff (n : ℕ) (mc : List (List Char × ℕ)) :
    (sCalc n mc).isSome = true ↔
      ((mc.map fun e => e.1.take n).dedup.length = 2) := by
  have hkeys : ((answerPlot n mc).map Prod.fst).length =
      (mc.map fun e => e.1.take n).dedup.length := by
    have hnd : ((answerPlot n mc).map Prod.fst).Nodup :=
      nodup_keys_fold n mc [] (by simp)
    have hmem : ∀ p, p ∈ (answerPlot n mc).map Prod.fst ↔
        p ∈ (mc.map fun e => e.1.take n).dedup := by
      intro p
      rw [List.mem_dedup, answerPlot, mem_keys_fold n mc []]
      simp
    have hfin : ((answerPlot n mc).map Prod.fst).toFinset =
        ((mc.map fun e => e.1.take n).dedup).toFinset := by
      apply Finset.ext
      intro p
      rw [List.mem_toFinset, List.mem_toFinset, hmem]
    calc ((answerPlot n mc).map Prod.fst).length
        = ((answerPlot n mc).map Prod.fst).toFinset.card :=
          (List.toFinset_card_of_nodup hnd).symm
      _ = ((mc.map fun e => e.1.take n).dedup).toFinset.card := by rw [hfin]
      _ = (mc.map fun e => e.1.take n).dedup.length :=
          List.toFinset_card_of_nodup (List.nodup_dedup _)
  have hmap : ∀ (o : Option (List Char × List Char)) (f : List Char × List Char → ℕ),
      (o.map f).isSome = o.isSome := by
    intro o f
    cases o <;> rfl
  rw [sCalc, hmap, unpack2_isSome, hkeys]

/-- Instantiation of `recovery_unpack_iff` at a concrete dict with exactly
two distinct truncated keys. -/
theorem recovery_unpack_iff_wit :
    (sCalc 3 simonTallyExample).isSome = true ↔
      ((simonTallyExample.map fun e => e.1.take 3).dedup.length = 2) :=
  recovery_unpack_iff 3 simonTallyExample

/-! ## C7 and C8: execution and failure-handling shape -/

/-- C7 (counterexample).  "The submission to the remote QPU passes no
explicit polling-timeout, retry, or recovery configuration of its own" is
false: the `ionq.run` call passes `poll_timeout_seconds=5*24*60*60`
(432000 seconds, "a polling time of 5 days" per its own comment). -/
theorem ionq_no_failure_config_cex :
    ionqSubmission.pollTimeoutSeconds = some 432000 ∧
    ¬(ionqSubmission.pollTimeoutSeconds = none ∧
      ionqSubmission.retryConfig = none ∧
      ionqSubmission.recoveryConfig = none) := by
  decide

/-- C7 (amended).  The cloud-device submission passes exactly one explicit
failure-handling option of its own — the polling timeout
`poll_timeout_seconds = 5*24*60*60` — and no retry or recovery
configuration, which are left to the SDK defaults. -/
theorem ionq_failure_config_amended :
    ionqSubmission.pollTimeoutSeconds = some (5 * 24 * 60 * 60) ∧
    ionqSubmission.retryConfig = none ∧
    ionqSubmission.recoveryConfig = none :=
  ⟨rfl, rfl, rfl⟩

/-- C8 (counterexample).  "Never more than one device-run invocation per
run of the script" is false: a top-to-bottom execution of the
`part_000` notebook performs seven blocking `device.run` calls. -/
theorem one_call_per_run_cex :
    runCount part000Cells = 7 ∧
    ¬ ∀ nb ∈ [part000Cells, part001Cells], runCount nb ≤ 1 := by
  constructor
  · rfl
  · intro h
    have h7 := h part000Cells (by simp)
    rw [show runCount part000Cells = 7 from rfl] at h7
    omega

/-- C8 (amended).  Every code cell of the two notebooks makes at most one
blocking call to an external simulator or cloud device (so there is at
most one such call per executed cell, though a full notebook run makes
several). -/
theorem one_call_per_cell :
    ∀ c ∈ part000Cells ++ part001Cells, c.count Stmt.deviceRun ≤ 1 := by
  decide

/-- Witness for `one_call_per_cell` at the first running cell of
`part_000`. -/
theorem one_call_per_cell_wit :
    ([Stmt.other, Stmt.deviceRun, Stmt.other, Stmt.other] ∈
      part000Cells ++ part001Cells) ∧
    ([Stmt.other, Stmt.deviceRun, Stmt.other, Stmt.other] : List Stmt).count
      Stmt.deviceRun ≤ 1 :=
  ⟨by decide, one_call_per_cell _ (by decide)⟩

/-! ## C10: partiality of the `mod(·, 2)` helper -/

/-- Modulo 2 there is an inverse exactly for odd numbers, and it is `1`. -/
lemma mod_inverse_two (d : ℕ) :
    mod_inverse (d : ℤ) 2 = if d % 2 = 1 then some 1 else none := by
  have h0 : List.range 2 = [0, 1] := rfl
  rw [mod_inverse, h0]
  rcases Nat.mod_two_eq_zero_or_one d with h | h
  · rw [if_neg (by omega)]
    have h3 : ¬((d : ℤ) % 2 = 1) := by omega
    simp [List.find?, h3]
  · rw [if_pos h]
    have h3 : (d : ℤ) % 2 = 1 := by omega
    simp [List.find?, h3]

/-- On an odd denominator the helper returns the numerator mod 2. -/
lemma pyMod_den_odd (x : ℚ) (h : x.den % 2 = 1) :
    pyMod x 2 = some (x.num % 2) := by
  rw [pyMod, mod_inverse_two, if_pos h, Option.map_some']
  push_cast
  rw [mul_one]

/-- On an even denominator the helper raises. -/
lemma pyMod_den_even (x : ℚ) (h : x.den % 2 = 0) :
    pyMod x 2 = none := by
  rw [pyMod, mod_inverse_two, if_neg (by omega)]
  rfl

/-- The cast-and-normalise of one matrix entry succeeds exactly on odd
denominators. -/
lemma pyMod_entry_isSome (x : ℚ) :
    (((pyMod x 2).map fun z => (z : ℚ)).isSome = true) ↔ x.den % 2 = 1 := by
  rcases Nat.mod_two_eq_zero_or_one x.den with h | h
  · rw [pyMod_den_even x h]
    simp [h]
  · rw [pyMod_den_odd x h]
    simp [h]

/-- `mapOption` succeeds exactly when every element does. -/
lemma mapOption_isSome {α β : Type} (f : α → Option β) :
    ∀ l : List α, ((mapOption f l).isSome = true) ↔ ∀ a ∈ l, (f a).isSome = true := by
  intro l
  induction l with
  | nil => simp [mapOption]
  | cons a l ih =>
    cases hfa : f a with
    | none =>
      have hred : mapOption f (a :: l) = none := by
        simp only [mapOption, hfa]
      rw [hred]
      constructor
      · intro hcon
        exact absurd hcon (by simp)
      · intro H
        have := H a (List.mem_cons_self a l)
        rw [hfa] at this
        exact absurd this (by simp)
    | some b =>
      cases hml : mapOption f l with
      | none =>
        have hred : mapOption f (a :: l) = none := by
          simp only [mapOption, hfa, hml]
        rw [hred]
        constructor
        · intro hcon
          exact absurd hcon (by simp)
        · intro H
          have hl : (mapOption f l).isSome = true :=
            ih.mpr fun x hx => H x (List.mem_cons_of_mem a hx)
          rw [hml] at hl
          exact absurd hl (by simp)
      | some bs =>
        have hred : mapOption f (a :: l) = some (b :: bs) := by
          simp only [mapOption, hfa, hml]
        rw [hred]
        constructor
        · intro _ x hx
          rcases List.mem_cons.mp hx with rfl | hx'
          · rw [hfa]
            rfl
          · have hl : (mapOption f l).isSome = true := by
              rw [hml]
              rfl
            exact ih.mp hl x hx'
        · intro _
          rfl

/-- C10.  The mod-2 normalisation helper is partial: on every rational
with odd denominator it returns `numer * mod_inverse(denom, 2) % 2` — the
numerator mod 2, a value in `{0, 1}` — while on an even denominator
`mod_inverse(denom, 2)` raises; hence normalising the reduced matrix
succeeds exactly when every entry's denominator is odd. -/
theorem mod_helper_partial :
    (∀ x : ℚ, x.den % 2 = 1 →
      pyMod x 2 = some (x.num % 2) ∧ (x.num % 2 = 0 ∨ x.num % 2 = 1)) ∧
    (∀ x : ℚ, x.den % 2 = 0 → pyMod x 2 = none) ∧
    (∀ M : List (List ℚ),
      ((applyMod2 M).isSome = true) ↔ ∀ row ∈ M, ∀ x ∈ row, x.den % 2 = 1) := by
  refine ⟨fun x h => ⟨pyMod_den_odd x h, by omega⟩,
    fun x h => pyMod_den_even x h, fun M => ?_⟩
  rw [applyMod2, mapOption_isSome]
  constructor
  · intro H row hrow x hx
    exact (pyMod_entry_isSome x).mp ((mapOption_isSome _ row).mp (H row hrow) x hx)
  · intro H row hrow
    rw [mapOption_isSome]
    intro x hx
    exact (pyMod_entry_isSome x).mpr (H row hrow x hx)

/-- Witness for `mod_helper_partial`: `3` (denominator `1`, odd) maps to
`3 % 2`, and `1/2` (denominator `2`, even) raises. -/
theorem mod_helper_partial_wit :
    ((3 : ℚ).den % 2 = 1 ∧
      (pyMod (3 : ℚ) 2 = some ((3 : ℚ).num % 2) ∧
        ((3 : ℚ).num % 2 = 0 ∨ (3 : ℚ).num % 2 = 1))) ∧
    (ratHalf.den % 2 = 0 ∧ pyMod ratHalf 2 = none) :=
  ⟨⟨by decide, mod_helper_partial.1 3 (by decide)⟩,
    ⟨by decide, mod_helper_partial.2.1 ratHalf (by decide)⟩⟩

/-! ## C6: the post-processing pipeline -/

/-- The retained tally entries are exactly those with a non-all-zero key
(in some order). -/
lemma buildLAnswer_perm (n : ℕ) (ap : List (List Char × ℕ)) :
    (buildLAnswer n ap).Perm
      (ap.filter fun e => decide ¬(e.1 = List.replicate n '0')) :=
  List.mergeSort_perm _ _

/-- The retained tally entries come out sorted by descending count. -/
lemma buildLAnswer_sorted (n : ℕ) (ap : List (List Char × ℕ)) :
    (buildLAnswer n ap).Pairwise fun a b => b.2 ≤ a.2 := by
  have htrans : ∀ a b c : List Char × ℕ,
      (fun a b : List Char × ℕ => decide (b.2 ≤ a.2)) a b = true →
      (fun a b : List Char × ℕ => decide (b.2 ≤ a.2)) b c = true →
      (fun a b : List Char × ℕ => decide (b.2 ≤ a.2)) a c = true := by
    intro a b c hab hbc
    simp only [decide_eq_true_eq] at hab hbc ⊢
    omega
  have htotal : ∀ a b : List Char × ℕ,
      ((fun a b : List Char × ℕ => decide (b.2 ≤ a.2)) a b ||
        (fun a b : List Char × ℕ => decide (b.2 ≤ a.2)) b a) = true := by
    intro a b
    simp only [Bool.or_eq_true, decide_eq_true_eq]
    omega
  have h := List.sorted_mergeSort htrans htotal
    (ap.filter fun e => decide ¬(e.1 = List.replicate n '0'))
  exact h.imp fun hab => of_decide_eq_true hab

/-- The printing loop accumulates exactly one line per row with a `1`. -/
lemma eqLines_filterMap (M : List (List ℚ)) :
    ∀ out : List String,
      M.foldl
        (fun out row =>
          if (rowNames row).length > 0 then
            out ++ [String.intercalate " + " (rowNames row) ++ " = 0"]
          else out)
        out =
      out ++ M.filterMap fun row =>
        if (rowNames row).length > 0 then
          some (String.intercalate " + " (rowNames row) ++ " = 0")
        else none := by
  induction M with
  | nil => intro out; simp
  | cons row M ih =>
    intro out
    rw [List.foldl_cons, List.filterMap_cons]
    by_cases h : (rowNames row).length > 0
    · rw [if_pos h, if_pos h, ih]
      simp [List.append_assoc]
    · rw [if_neg h, if_neg h, ih]

/-- C6.  The post-processing cell performs, in order: build the matrix `Y`
whose rows are the bit vectors of the tally keys other than the all-zero
string, sorted by descending observed count; reduce `Y` (the sympy `rref`
call, taken opaque); normalise every entry of the reduced matrix mod 2;
then print exactly one `s[ i1 ] + … + s[ ik ] = 0` line per row holding at
least one `1` — the `i`s being the positions of the `1`s — and nothing for
all-zero rows. -/
theorem post_processing_pipeline (n : ℕ) (ap : List (List Char × ℕ)) :
    (buildLAnswer n ap).Perm
      (ap.filter fun e => decide ¬(e.1 = List.replicate n '0')) ∧
    ((buildLAnswer n ap).Pairwise fun a b => b.2 ≤ a.2) ∧
    buildY n ap =
      (buildLAnswer n ap).map (fun e => e.1.map fun c => if c = '1' then (1 : ℚ) else 0) ∧
    (∀ M : List (List ℚ), eqLines M = M.filterMap fun row =>
      if (rowNames row).length > 0 then
        some (String.intercalate " + " (rowNames row) ++ " = 0")
      else none) ∧
    (∀ (rrefFn : List (List ℚ) → List (List ℚ) × List ℕ) (Ynew : List (List ℚ)),
      applyMod2 (rrefFn (buildY n ap)).1 = some Ynew →
      postProcess n rrefFn ap = some (eqLines Ynew)) := by
  refine ⟨buildLAnswer_perm n ap, buildLAnswer_sorted n ap, rfl,
    fun M => ?_, fun rrefFn Ynew h => ?_⟩
  · have := eqLines_filterMap M []
    simpa [eqLines] using this
  · rw [postProcess, h]
    rfl

/-- Witness for `post_processing_pipeline` at a concrete `n = 3` tally:
the `'000'` row is dropped, the `'110'` row survives the (stand-in)
reduction and the mod-2 normalisation, and exactly the line
`s[ 0 ] + s[ 1 ] = 0` is printed. -/
theorem post_processing_pipeline_wit :
    applyMod2 (idRref (buildY 3 answerPlotExample)).1 = some [[1, 1, 0]] ∧
    postProcess 3 idRref answerPlotExample = some (eqLines [[1, 1, 0]]) ∧
    eqLines [[1, 1, 0]] = ["s[ 0 ] + s[ 1 ] = 0"] := by
  have hfilter : (answerPlotExample.filter fun e =>
      decide ¬(e.1 = List.replicate 3 '0')) = [(['1', '1', '0'], 5)] := by
    decide
  have hL : buildLAnswer 3 answerPlotExample = [(['1', '1', '0'], 5)] := by
    rw [buildLAnswer, hfilter]
    exact List.mergeSort_singleton _
  have happly : applyMod2 (idRref (buildY 3 answerPlotExample)).1 = some [[1, 1, 0]] := by
    show applyMod2 (buildY 3 answerPlotExample) = some [[1, 1, 0]]
    rw [buildY, hL]
    decide
  exact ⟨happly,
    (post_processing_pipeline 3 answerPlotExample).2.2.2.2 idRref [[1, 1, 0]] happly,
    by decide⟩
